import Mathlib

/-
Verification of the exofile reconciliation engine.

Shallow embedding of the masked-table data model and the merge operations of
`exofile/table_custom.py` and `exofile/archive.py`:

* `MTable` models the custom astropy `Table` subclass: an ordered list of
  named, unit-typed columns whose cells carry an independent mask flag
  (numpy masked arrays).  The key column (`pl_name`) is kept separately in
  `names`; its cells are taken to be present, matching the data-model
  invariant that key cells are never masked.
* Column units are modelled as an optional rational scale factor to a fixed
  base unit, so that astropy's `u.to(v)` conversion factor is `u / v`
  (e.g. day = 86400, second = 1, and `day.to(second) = 86400`).
* Numeric cell values are rationals; the floating-point layer is not
  modelled (claims are about exact merge/bookkeeping semantics).
-/

namespace Exofile

/-- A table cell: a value together with its numpy mask flag
(`masked = true` means the value is absent). -/
structure Cell where
  val : ℚ
  masked : Bool
deriving DecidableEq, Repr

/-- A data column: name, optional unit (scale to the base unit), cells. -/
structure Col where
  name : String
  unit : Option ℚ
  cells : List Cell
deriving DecidableEq, Repr

/-- A masked table.  `names` is the key column (`pl_name`); `cols` are the
data columns. -/
structure MTable where
  mainCol : String
  names : List String
  cols : List Col
deriving DecidableEq, Repr

/-- Predicate `leadsWith sub s`: `sub` occurs at the start of `s` (character lists). -/
def leadsWith : List Char → List Char → Bool
  | [], _ => true
  | _ :: _, [] => false
  | a :: as, b :: bs => a == b && leadsWith as bs

/-- Predicate `subIn sub s`: `sub` occurs contiguously somewhere in `s`. -/
def subIn (sub : List Char) : List Char → Bool
  | [] => sub.isEmpty
  | c :: rest => leadsWith sub (c :: rest) || subIn sub rest

/-- Substring test on strings; models
`np.core.defchararray.find(str_array, sub) != -1` used by
`MaskedColumn.find` (table_custom.py:14-21). -/
def containsSub (s sub : String) : Bool := subIn sub.toList s.toList

/-- Row positions whose key value contains `sub` as a substring; models
`MaskedColumn.find` returning `np.where(index)[0]`. -/
def findSub (names : List String) (sub : String) : List Nat :=
  (List.range names.length).filter (fun i => containsSub (names.getD i "") sub)

/-- The matching key values themselves (second component returned by
`MaskedColumn.find`). -/
def foundNames (names : List String) (sub : String) : List String :=
  (findSub names sub).map (fun i => names.getD i "")

/-- Errors raised by the merge/lookup operations of the source. -/
inductive MergeErr where
  /-- The `KeyError` from `self[key]` when a source column is absent from the
  target (archive.py:146). -/
  | keyError (col : String)
  /-- The `ValueError('Incomplete name. Possible values: ...')` raised by
  `Table.get_index` when a substring matches several rows
  (table_custom.py:140-143). -/
  | ambiguous (values : List String)
  /-- The `ValueError("Unkonwn planet '...'")` raised by `Table.get_index` when
  nothing matches (table_custom.py:145-147). -/
  | notFound (name : String)
deriving DecidableEq, Repr

/-- Models `Table.get_index` (table_custom.py:125-149): for each requested
name, `int(col.find(pl)[0])` succeeds exactly when one row matches; with
zero or several matches the `int()` call raises `TypeError` and the method
raises `ValueError` — listing the matches when there are several, or naming
the unknown input when there are none. -/
def get_index (names : List String) : List String → Except MergeErr (List Nat)
  | [] => .ok []
  | pl :: rest =>
    match findSub names pl with
    | [j] =>
      match get_index names rest with
      | .ok js => .ok (j :: js)
      | .error e => .error e
    | [] => .error (.notFound pl)
    | _ :: _ :: _ => .error (.ambiguous (foundNames names pl))

/-! ### Cell access and the `replace_with` merge (archive.py:130-185) -/

/-- The cell of a column at row `i` (masked default outside the range,
which merge well-formedness rules out). -/
def cellAt (col : Col) (i : Nat) : Cell := col.cells.getD i ⟨0, true⟩

/-- First column with the given name (`table[name]` lookup; astropy column
names are unique in a table). -/
def getCol (t : MTable) (c : String) : Option Col :=
  t.cols.find? (fun col => col.name == c)

/-- Whether the table has a data column with this name. -/
def hasColName (t : MTable) (c : String) : Bool :=
  t.cols.any (fun col => col.name == c)

/-- The cell of the table at column `c`, row `i`. -/
def tcell (t : MTable) (c : String) (i : Nat) : Cell :=
  match getCol t c with
  | some col => cellAt col i
  | none => ⟨0, true⟩

/-- The unit of column `c` (the `units[key] = self[key].unit` snapshot taken
at archive.py:146). -/
def unitOf (t : MTable) (c : String) : Option ℚ :=
  match getCol t c with
  | some col => col.unit
  | none => none

/-- Assignment `self[i_self][key] = v` on a masked table: sets the value and clears the
mask at row `i` of the column named `nm`. -/
def setCellP (t : MTable) (nm : String) (i : Nat) (v : ℚ) : MTable :=
  { t with cols := t.cols.map (fun c =>
      if c.name = nm then { c with cells := c.cells.set i ⟨v, false⟩ } else c) }

/-- The value assigned by archive.py:179-185: no conversion when the target
column has no unit; otherwise `other[key].unit.to(units[key])` where a
source column without a unit has adopted the target's unit
(archive.py:149-151), i.e. the factor `(sU or tU) / tU`. -/
def convertVal (tU sU : Option ℚ) (v : ℚ) : ℚ :=
  match tU with
  | none => v
  | some t => v * ((sU.getD t) / t)

/-- Inner loop of archive.py:179-185 over the source's columns: for each
source column whose cell at row `i` is not masked, assign the
(unit-converted) value into the target at row `j`.  `tOrig` carries the
`units` dictionary snapshot. -/
def assignCols (tOrig : MTable) (ocs : List Col) (i j : Nat) (t : MTable) : MTable :=
  match ocs with
  | [] => t
  | oc :: rest =>
    assignCols tOrig rest i j
      (if (cellAt oc i).masked then t
       else setCellP t oc.name j (convertVal (unitOf tOrig oc.name) oc.unit (cellAt oc i).val))

/-- One iteration of the row loop (archive.py:168-185) for source row `i`
matched to target row `j`. -/
def assignRow (tOrig other : MTable) (i j : Nat) (t : MTable) : MTable :=
  assignCols tOrig other.cols i j t

/-- The row loop `for i_other, i_self in enumerate(index)` of
archive.py:168. -/
def assignGo (tOrig other : MTable) : Nat → List Nat → MTable → MTable
  | _, [], t => t
  | i, j :: js, t => assignGo tOrig other (i + 1) js (assignRow tOrig other i j t)

/-- Models `self.add_row({"pl_name": name})` (archive.py:161): appends a row whose
key is `name` and whose every data cell is masked. -/
def addRow (t : MTable) (name : String) : MTable :=
  { t with
    names := t.names ++ [name]
    cols := t.cols.map (fun c => { c with cells := c.cells ++ [⟨0, true⟩] }) }

/-- The `for name in other[index == -1]["pl_name"]` loop of
archive.py:160-161, pairing each source key with its resolved position. -/
def appendMissing (t : MTable) : List (String × Int) → MTable
  | [] => t
  | (n, i) :: rest => appendMissing (if i == -1 then addRow t n else t) rest

/-- Models `ExoFile.replace_with` (archive.py:130-185), with the mutation of the
target threaded explicitly: the returned table is the state of `self` when
the call returns or raises.  Phases in source order: (1) the unit-comparison
pass over `other.keys()`, which raises `KeyError` at the first source column
absent from the target (archive.py:145-146); (2) key resolution via
`get_index`; (3) the append loop for positions equal to `-1`; (4)
re-resolution; (5) the assignment loop.  `other` is the masked copy made at
archive.py:141, so the caller's source is never touched. -/
def replace_with (self other : MTable) : MTable × Option MergeErr :=
  match other.cols.find? (fun oc => !(hasColName self oc.name)) with
  | some oc => (self, some (.keyError oc.name))
  | none =>
    match get_index self.names other.names with
    | .error e => (self, some e)
    | .ok idx =>
      let self1 := appendMissing self (other.names.zip (idx.map Int.ofNat))
      match get_index self1.names other.names with
      | .error e => (self1, some e)
      | .ok idx2 => (assignGo self other 0 idx2 self1, none)

/-! ### Column-level merge `Table.complete` / `Table._complete`
(table_custom.py:237-319) -/

/-- Position of the first row with the given key (the row of `right` a left
row joins with; key values are unique in a well-formed table). -/
def findRow (names : List String) (x : String) : Option Nat :=
  match names with
  | [] => none
  | n :: rest => if n = x then some 0 else (findRow rest x).map (fun i => i + 1)

/-- The cell a left join contributes from `right`'s column `rcol` for the
left row keyed `name`: the matching right row's cell, or a masked cell when
the key has no match. -/
def joinCell (right : MTable) (rcol : Col) (name : String) : Cell :=
  match findRow right.names name with
  | some j => cellAt rcol j
  | none => ⟨0, true⟩

/-- One shared-or-left-only column of the join result: for a column `lc` of
`left` also present in `right`, a cell masked in `left` and present in
`right` takes `right`'s value and becomes present
(`index = mask1 & ~mask2` then reassignment, table_custom.py:300-304); all
other cells keep `left`'s cell.  A left-only column is passed through. -/
def mergeLeftCol (left right : MTable) (lc : Col) : Col :=
  match getCol right lc.name with
  | none => lc
  | some rcol =>
    { lc with cells := (List.range left.names.length).map (fun i =>
        let lcell := cellAt lc i
        let rcell := joinCell right rcol (left.names.getD i "")
        if lcell.masked && !rcell.masked then ⟨rcell.val, false⟩ else lcell) }

/-- The right-only columns (`supp_cols = difference(right.keys(), self.keys())`,
table_custom.py:311), filled through the left join. -/
def extraCols (left right : MTable) : List Col :=
  (right.cols.filter (fun rcol => !(hasColName left rcol.name))).map (fun rcol =>
    { rcol with cells := (List.range left.names.length).map (fun i =>
        joinCell right rcol (left.names.getD i "")) })

/-- Models `Table._complete` (table_custom.py:278-319) with the default left join.
Right-only columns are kept when `add_col` is true and removed otherwise
(table_custom.py:311-317).  A new table is returned; the inputs are
untouched (the embedding is pure, as the source operates on the joined
copy).  The astropy `join` sorts the result by key; row order is
irrelevant to the per-key cell contract, so the embedding keeps `self`'s
row order. -/
def complete (left right : MTable) (addCol : Bool) : MTable :=
  { mainCol := left.mainCol
    names := left.names
    cols := left.cols.map (mergeLeftCol left right)
      ++ (if addCol then extraCols left right else []) }

/-! ### Error-group masking (archive.py:66-128) -/

/-- Models `ExoFile.get_colnames_with_error` (archive.py:66-92): every column `X`
such that `X ++ e` exists for every requested error extension forms the
group `[X, Xerr1, Xerr2, ...]`; other columns are skipped silently. -/
def errGroups (t : MTable) (exts : List String) : List (List String) :=
  t.cols.filterMap (fun c =>
    if exts.all (fun e => hasColName t (c.name ++ e)) then
      some (c.name :: exts.map (fun e => c.name ++ e))
    else none)

/-- Assignment `self[col].mask[imask] = True` over a column group: set the mask (and
only the mask) at the listed rows of every column in the group. -/
def maskCellsAt (t : MTable) (g : List String) (rows : List Nat) : MTable :=
  { t with cols := t.cols.map (fun c =>
      if g.contains c.name then
        { c with cells := (List.range c.cells.length).map (fun r =>
            if rows.contains r then { cellAt c r with masked := true } else cellAt c r) }
      else c) }

/-- One group step of `ExoFile.mask_no_errors` (archive.py:98-109): rows
where any group member is masked are masked across the whole group. -/
def applyNoErr (t : MTable) (g : List String) : MTable :=
  maskCellsAt t g
    ((List.range t.names.length).filter (fun r => g.any (fun cn => (tcell t cn r).masked)))

/-- Models `ExoFile.mask_no_errors` (archive.py:94-109). -/
def mask_no_errors (t : MTable) (exts : List String) : MTable :=
  (errGroups t exts).foldl applyNoErr t

/-- Row condition of `ExoFile.mask_zero_errors` (archive.py:118-123): some
error sibling (`cols[1:]`) is present and exactly zero at this row (masked
entries compare as masked and are ignored by `.any`). -/
def rowZeroErr (t : MTable) (g : List String) (r : Nat) : Bool :=
  (g.drop 1).any (fun cn => !(tcell t cn r).masked && (tcell t cn r).val == 0)

/-- One group step of `ExoFile.mask_zero_errors` (archive.py:115-128),
including the guard `if imask.any()` of archive.py:127: `imask` is the
array of matching row indices, so `.any()` is true only when some matching
index is nonzero — row index 0 alone does not pass the guard. -/
def applyZeroErr (t : MTable) (g : List String) : MTable :=
  let imask := (List.range t.names.length).filter (rowZeroErr t g)
  if imask.any (fun r => r != 0) then maskCellsAt t g imask else t

/-- Models `ExoFile.mask_zero_errors` (archive.py:111-128). -/
def mask_zero_errors (t : MTable) (exts : List String) : MTable :=
  (errGroups t exts).foldl applyZeroErr t

/-! ### Schema migration renames in `format_ps_table` (archive.py:592-616) -/

/-- Columns documented in the master CSV mapping but missing from the
archive (archive.py:20-33). -/
def MISSING_COLS : List String :=
  ["raerr1", "raerr2", "decerr1", "decerr2", "glaterr1", "glaterr2",
   "glonerr1", "glonerr2", "elaterr1", "elaterr2", "elonerr1", "elonerr2"]

/-- Models `table.rename_column(o, n)` on the column-name list. -/
def renameCol (cols : List String) (o n : String) : List String :=
  cols.map (fun c => if c = o then n else c)

/-- Models `str.strip()` on a label: drop leading and trailing spaces. -/
def stripSpaces (s : String) : String :=
  String.mk (((s.toList.dropWhile (fun ch => ch == ' ')).reverse.dropWhile
    (fun ch => ch == ' ')).reverse)

/-- The (old, new) label pairs the rename loop iterates over
(archive.py:604-610): keep mapping rows with both a PS and a PSCP label,
drop `systemref` rows, strip whitespace.  NOTE: faithful to the source,
which builds BOTH `label_ps` and `label_pc` from the PS column
(`label_pc = label_df[PS_NAME].str.strip()` at archive.py:608), so every
pair is `(old, old)`. -/
def ps_rename_pairs (mapping : List (Option String × Option String)) :
    List (String × String) :=
  mapping.filterMap (fun p =>
    match p.1, p.2 with
    | some a, some _ =>
      if containsSub a "systemref" then none else some (stripSpaces a, stripSpaces a)
    | _, _ => none)

/-- The rename loop of archive.py:610-616: skip labels in `MISSING_COLS`;
rename when the old column exists; otherwise record a warning (second
component) instead of failing. -/
def apply_renames (cols : List String) (pairs : List (String × String)) :
    List String × List String :=
  pairs.foldl (fun st p =>
    if MISSING_COLS.contains p.1 then st
    else if st.1.contains p.1 then (renameCol st.1 p.1 p.2, st.2)
    else (st.1, st.2 ++ [p.1])) (cols, [])

/-- The column-rename phase of `format_ps_table`: resulting column names
and accumulated missing-column warnings. -/
def format_ps_renames (mapping : List (Option String × Option String))
    (cols : List String) : List String × List String :=
  apply_renames cols (ps_rename_pairs mapping)

/-! ### Schema reconciliation tail of `ExoFile.update` (archive.py:455-470) -/

/-- Models `difference` from table_custom.py:375-379 (`list(set(left) - set(right))`;
the set iteration order is irrelevant downstream, only membership and
emptiness are consumed). -/
def difference (l r : List String) : List String :=
  (l.filter (fun x => !(r.contains x))).dedup

/-- Errors of the `update` pipeline tail. -/
inductive UpdateErr where
  /-- The `KeyError` raised by `new[pc_cols]` when a reference column is absent. -/
  | keyError (c : String)
  /-- The `RuntimeError` of the safety check at archive.py:467-470. -/
  | runtimeError
deriving DecidableEq, Repr

/-- The non-composite tail of `ExoFile.update` (archive.py:460-470) acting
on the column-name lists: drop accumulator columns absent from the
reference (`del new[dlist]`), re-index by the reference columns
(`new = new[pc_cols]`, raising `KeyError` at the first missing one), then
the safety check comparing the resulting columns with the reference. -/
def update_tail (newCols pcCols : List String) : Except UpdateErr (List String) :=
  let dlist := difference newCols pcCols
  let kept := newCols.filter (fun c => !(dlist.contains c))
  match pcCols.find? (fun c => !(kept.contains c)) with
  | some c => .error (.keyError c)
  | none =>
    let reindexed := pcCols
    if 0 < (difference reindexed pcCols).length ∨ 0 < (difference pcCols reindexed).length
    then .error .runtimeError
    else .ok reindexed

/-! ### The composite reduction loop of `compose_from_ps`
(archive.py:690-712) -/

/-- Models `Table.has_masked_values`: some cell of the table is masked. -/
def hasMasked (t : MTable) : Bool :=
  t.cols.any (fun c => c.cells.any (fun cell => cell.masked))

/-- The first row of every per-object group (`grouped.groups.indices[:-1]`
after `group_by(["pl_name"])`): for each distinct key, its first remaining
row (the pool was sorted best-first once, so this is the best candidate). -/
def firstPerName (seen : List String) : List (String × List Cell) → List (String × List Cell)
  | [] => []
  | r :: rs =>
    if seen.contains r.1 then firstPerName seen rs
    else r :: firstPerName (r.1 :: seen) rs

/-- Models `grouped.remove_rows(index)`: the pool after removing the first row of
every per-object group. -/
def dropFirstPerName (seen : List String) : List (String × List Cell) → List (String × List Cell)
  | [] => []
  | r :: rs =>
    if seen.contains r.1 then r :: dropFirstPerName seen rs
    else dropFirstPerName (r.1 :: seen) rs

/-- View a row-major candidate pool (shared column header + rows) as a
masked table, to feed it to `complete`. -/
def poolToTable (header : List (String × Option ℚ))
    (rows : List (String × List Cell)) : MTable :=
  { mainCol := "pl_name"
    names := rows.map (fun r => r.1)
    cols := (List.range header.length).map (fun j =>
      { name := (header.getD j ("", none)).1
        unit := (header.getD j ("", none)).2
        cells := rows.map (fun r => r.2.getD j ⟨0, true⟩) }) }

/-- Number of candidate rows carrying the given object name. -/
def countName (n : String) (rows : List (String × List Cell)) : Nat :=
  (rows.filter (fun r => r.1 == n)).length

/-- The largest number of candidate rows sharing one object name. -/
def maxMult (rows : List (String × List Cell)) : Nat :=
  (rows.map (fun r => r.1)).foldr (fun n m => max (countName n rows) m) 0

/-- The `while len(grouped) > 1 and ps_tbl.has_masked_values` loop of
`compose_from_ps` (archive.py:692-712), with an explicit structural fuel:
each pass folds the per-object best rows into the accumulator with
`complete(..., add_col=False)` and removes them from the pool.  The third
component counts the executed passes.  `compose_from_ps_loop` runs it with
fuel `rows.length`, which the termination theorem shows is never
exhausted: the loop always exits through its own stop condition. -/
def compose_go (header : List (String × Option ℚ)) :
    Nat → MTable → List (String × List Cell) →
      MTable × List (String × List Cell) × Nat
  | 0, acc, rows => (acc, rows, 0)
  | fuel + 1, acc, rows =>
    if 1 < rows.length ∧ hasMasked acc = true then
      let acc2 := complete acc (poolToTable header (firstPerName [] rows)) false
      let out := compose_go header fuel acc2 (dropFirstPerName [] rows)
      (out.1, out.2.1, out.2.2 + 1)
    else (acc, rows, 0)

/-- The composite reduction loop with its natural fuel. -/
def compose_from_ps_loop (header : List (String × Option ℚ)) (acc : MTable)
    (rows : List (String × List Cell)) :
    MTable × List (String × List Cell) × Nat :=
  compose_go header rows.length acc rows

/-! ## Theorems -/

/-- Every position returned by `get_index` is a valid row index. -/
theorem get_index_lt (names : List String) :
    ∀ pls idx, get_index names pls = .ok idx → ∀ j ∈ idx, j < names.length := by
  intro pls
  induction pls with
  | nil =>
    intro idx h j hj
    unfold get_index at h
    injection h with h'
    subst h'
    exact absurd hj (by simp)
  | cons pl rest ih =>
    intro idx h j hj
    unfold get_index at h
    cases hfs : findSub names pl with
    | nil => rw [hfs] at h; exact absurd h (by simp)
    | cons a tl =>
      cases tl with
      | nil =>
        rw [hfs] at h
        cases hrest : get_index names rest with
        | ok js =>
          rw [hrest] at h
          simp at h
          rw [← h] at hj
          rcases List.mem_cons.mp hj with h1 | h2
          · subst h1
            have : j ∈ findSub names pl := by rw [hfs]; exact List.mem_singleton.mpr rfl
            have := List.mem_filter.mp this
            exact List.mem_range.mp this.1
          · exact ih js hrest j h2
        | error e => rw [hrest] at h; exact absurd h (by simp)
      | cons b tl' => rw [hfs] at h; exact absurd h (by simp)

/-- Claim C5: on a table whose key column is
`["HD 1 b", "HD 1 c", "HD 2 b"]`, looking up the substring `"HD 1"` raises
the ambiguity error listing both matching names, looking up `"HD 3"` raises
the not-found error naming the input, and looking up the exact key
`"HD 2 b"` deterministically returns its row position `2`. -/
theorem get_index_hd_examples :
    get_index ["HD 1 b", "HD 1 c", "HD 2 b"] ["HD 1"]
      = .error (.ambiguous ["HD 1 b", "HD 1 c"]) ∧
    get_index ["HD 1 b", "HD 1 c", "HD 2 b"] ["HD 3"]
      = .error (.notFound "HD 3") ∧
    get_index ["HD 1 b", "HD 1 c", "HD 2 b"] ["HD 2 b"] = .ok [2] := by
  refine ⟨?_, ?_, ?_⟩ <;> rfl

/-! ### Structural lemmas about cell assignment -/

theorem find?_map_name_pres (f : Col → Col) (hf : ∀ c, (f c).name = c.name)
    (l : List Col) (nm : String) :
    (l.map f).find? (fun col => col.name == nm)
      = (l.find? (fun col => col.name == nm)).map f := by
  induction l with
  | nil => rfl
  | cons c l ih =>
    simp only [List.map_cons, List.find?]
    rw [hf c]
    cases h : (c.name == nm)
    · simp only [h]; exact ih
    · simp only [h]; rfl

theorem getCol_setCellP (t : MTable) (nm : String) (i : Nat) (v : ℚ) (c : String) :
    getCol (setCellP t nm i v) c
      = (getCol t c).map (fun col =>
          if col.name = nm then { col with cells := col.cells.set i ⟨v, false⟩ } else col) := by
  unfold getCol setCellP
  exact find?_map_name_pres _ (fun col => by by_cases h : col.name = nm <;> simp [h]) _ _

theorem tcell_setCellP_ne_row (t : MTable) (nm : String) (i j : Nat) (v : ℚ)
    (c : String) (hij : i ≠ j) :
    tcell (setCellP t nm i v) c j = tcell t c j := by
  unfold tcell
  rw [getCol_setCellP]
  cases h : getCol t c with
  | none => rfl
  | some col =>
    simp only [Option.map_some']
    by_cases hn : col.name = nm
    · simp only [if_pos hn]
      unfold cellAt
      simp [List.getElem?_set_ne hij]
    · simp [if_neg hn]

theorem tcell_setCellP_ne_name (t : MTable) (nm : String) (i : Nat) (v : ℚ)
    (c : String) (j : Nat) (hnc : nm ≠ c) :
    tcell (setCellP t nm i v) c j = tcell t c j := by
  unfold tcell
  rw [getCol_setCellP]
  cases h : getCol t c with
  | none => rfl
  | some col =>
    have hcol : col.name = c := by
      have := List.find?_some h
      simpa using this
    simp only [Option.map_some']
    rw [if_neg (by rw [hcol]; exact fun hh => hnc hh.symm)]

theorem tcell_setCellP_self (t : MTable) (c : String) (j : Nat) (v : ℚ)
    (col : Col) (hcol : getCol t c = some col) (hj : j < col.cells.length) :
    tcell (setCellP t c j v) c j = ⟨v, false⟩ := by
  unfold tcell
  rw [getCol_setCellP, hcol]
  have hname : col.name = c := by
    have := List.find?_some hcol
    simpa using this
  simp only [Option.map_some', if_pos hname]
  unfold cellAt
  simp [List.getElem?_set_self hj]

/-- Lemma: `setCellP` does not change column names, units or lengths. -/
theorem sig_setCellP (t : MTable) (nm : String) (i : Nat) (v : ℚ) :
    (setCellP t nm i v).cols.map (fun c => (c.name, c.unit, c.cells.length))
      = t.cols.map (fun c => (c.name, c.unit, c.cells.length)) := by
  unfold setCellP
  simp only [List.map_map]
  apply List.map_congr_left
  intro c _
  by_cases h : c.name = nm <;> simp [h]

theorem names_setCellP (t : MTable) (nm : String) (i : Nat) (v : ℚ) :
    (setCellP t nm i v).names = t.names := rfl

/-- If every source column named `c` is masked at source row `i`, the inner
assignment loop leaves column `c` untouched. -/
theorem tcell_assignCols_not_name (tOrig : MTable) (ocs : List Col) (i j : Nat)
    (t : MTable) (c : String) (j₀ : Nat)
    (h : ∀ oc ∈ ocs, oc.name = c → (cellAt oc i).masked = true) :
    tcell (assignCols tOrig ocs i j t) c j₀ = tcell t c j₀ := by
  induction ocs generalizing t with
  | nil => rfl
  | cons oc rest ih =>
    simp only [assignCols]
    by_cases hm : (cellAt oc i).masked
    · rw [if_pos hm]
      exact ih _ (fun oc' h1 h2 => h oc' (List.mem_cons_of_mem _ h1) h2)
    · rw [if_neg hm]
      have hne : oc.name ≠ c := fun hc => hm (h oc (List.mem_cons_self _ _) hc)
      rw [ih _ (fun oc' h1 h2 => h oc' (List.mem_cons_of_mem _ h1) h2)]
      exact tcell_setCellP_ne_name _ _ _ _ _ _ hne

/-- Assignments into target row `j` leave any other row `j₀` untouched. -/
theorem tcell_assignCols_ne_row (tOrig : MTable) (ocs : List Col) (i j : Nat)
    (t : MTable) (c : String) (j₀ : Nat) (hj : j ≠ j₀) :
    tcell (assignCols tOrig ocs i j t) c j₀ = tcell t c j₀ := by
  induction ocs generalizing t with
  | nil => rfl
  | cons oc rest ih =>
    simp only [assignCols]
    by_cases hm : (cellAt oc i).masked
    · rw [if_pos hm]; exact ih t
    · rw [if_neg hm, ih, tcell_setCellP_ne_row _ _ _ _ _ _ hj]

/-- If no pair of the row loop both targets row `j₀` and has an unmasked
source cell in a column named `c`, cell `(c, j₀)` is preserved. -/
theorem tcell_assignGo_preserve (tOrig other : MTable) (js : List Nat) (i₀ : Nat)
    (t : MTable) (c : String) (j₀ : Nat)
    (h : ∀ p, p < js.length → js.getD p 0 = j₀ →
         ∀ oc ∈ other.cols, oc.name = c → (cellAt oc (i₀ + p)).masked = true) :
    tcell (assignGo tOrig other i₀ js t) c j₀ = tcell t c j₀ := by
  induction js generalizing i₀ t with
  | nil => rfl
  | cons j js' ih =>
    simp only [assignGo]
    have hstep : tcell (assignRow tOrig other i₀ j t) c j₀ = tcell t c j₀ := by
      by_cases hjj : j = j₀
      · subst hjj
        exact tcell_assignCols_not_name _ _ _ _ _ _ _
          (fun oc h1 h2 => by
            have := h 0 (by simp) (by simp) oc h1 h2
            simpa using this)
      · exact tcell_assignCols_ne_row _ _ _ _ _ _ _ hjj
    rw [ih (i₀ + 1) (assignRow tOrig other i₀ j t)
      (fun p hp hgd oc h1 h2 => by
        have := h (p + 1) (by simpa using Nat.succ_lt_succ hp) (by simpa using hgd) oc h1 h2
        have harith : i₀ + (p + 1) = i₀ + 1 + p := by omega
        rwa [harith] at this), hstep]

/-- The append loop is a no-op when no resolved position is `-1`; since
`get_index` raises instead of returning `-1`, this branch
(archive.py:159-165) is dead on every call that reaches it. -/
theorem appendMissing_nonneg (l : List (String × Int)) :
    ∀ t : MTable, (∀ p ∈ l, p.2 ≠ -1) → appendMissing t l = t := by
  induction l with
  | nil => intro t _; rfl
  | cons p rest ih =>
    intro t h
    obtain ⟨n, i⟩ := p
    simp only [appendMissing]
    have hi : ¬(i == -1) = true := by
      simpa using h (n, i) (List.mem_cons_self _ _)
    rw [if_neg hi]
    exact ih t (fun q hq => h q (List.mem_cons_of_mem _ hq))

/-- When every source column exists in the target and every source key
resolves, `replace_with` reduces to the assignment loop: no row is appended
(the `-1` branch is dead) and no error is raised. -/
theorem replace_with_ok (T S : MTable) (idx : List Nat)
    (hcols : ∀ oc ∈ S.cols, hasColName T oc.name = true)
    (hidx : get_index T.names S.names = .ok idx) :
    replace_with T S = (assignGo T S 0 idx T, none) := by
  unfold replace_with
  have hfind : S.cols.find? (fun oc => !(hasColName T oc.name)) = none := by
    rw [List.find?_eq_none]
    intro oc hm
    simp [hcols oc hm]
  rw [hfind, hidx]
  have happ : appendMissing T (S.names.zip (idx.map Int.ofNat)) = T := by
    apply appendMissing_nonneg
    intro p hp
    have h2 := (List.of_mem_zip hp).2
    obtain ⟨k, _, hk⟩ := List.mem_map.mp h2
    rw [← hk]
    intro hc
    have hnn : (0 : Int) ≤ Int.ofNat k := Int.ofNat_nonneg k
    rw [hc] at hnn
    exact absurd hnn (by decide)
  simp only [happ, hidx]

/-- With unique column names, the column `getCol` returns is the only one
with its name. -/
theorem eq_of_getCol_nodup (S : MTable)
    (hnd : (S.cols.map (fun col => col.name)).Nodup) (c : String) (sc : Col)
    (h : getCol S c = some sc) :
    ∀ oc ∈ S.cols, oc.name = c → oc = sc := by
  intro oc hmem hname
  have hscmem : sc ∈ S.cols := List.mem_of_find?_eq_some h
  have hscname : sc.name = c := by
    have := List.find?_some h
    simpa using this
  exact List.inj_on_of_nodup_map hnd hmem hscmem (by rw [hname, hscname])

/-- Claim C1: for tables sharing the key column, a cell that is
masked-absent in the source leaves the corresponding target cell (same row
via key resolution, same column) entirely unchanged — same value, same
mask.  Source absence never erases or overwrites a target value.  The
hypotheses say the merge completes: every source column exists in the
target, every source key resolves to exactly one target row, and distinct
source rows resolve to distinct target rows. -/
theorem replace_with_source_absent_preserves
    (T S : MTable) (idx : List Nat) (r : Nat) (c : String) (sc : Col)
    (hwS : (S.cols.map (fun col => col.name)).Nodup)
    (hcols : ∀ oc ∈ S.cols, hasColName T oc.name = true)
    (hidx : get_index T.names S.names = .ok idx)
    (hnd : idx.Nodup)
    (hr : r < idx.length)
    (hsc : getCol S c = some sc)
    (hm : (cellAt sc r).masked = true) :
    replace_with T S = (assignGo T S 0 idx T, none) ∧
    tcell (assignGo T S 0 idx T) c (idx.getD r 0) = tcell T c (idx.getD r 0) := by
  refine ⟨replace_with_ok T S idx hcols hidx, ?_⟩
  apply tcell_assignGo_preserve
  intro p hp hgd oc hmem hname
  have hpr : p = r := by
    rw [List.getD_eq_getElem idx 0 hp, List.getD_eq_getElem idx 0 hr] at hgd
    exact (List.Nodup.getElem_inj_iff hnd).mp hgd
  subst hpr
  have : oc = sc := eq_of_getCol_nodup S hwS c sc hsc oc hmem hname
  rw [this, Nat.zero_add]
  exact hm

/-- Witness for C1 at a concrete merge: target row `"Planet A"` holds
`pl_orbper = 5` present; the source row for the same key has the cell
masked; after the merge the target cell is untouched. -/
theorem replace_with_source_absent_preserves_witness :
    replace_with
        ⟨"pl_name", ["Planet A"], [⟨"pl_orbper", some 1, [⟨5, false⟩]⟩]⟩
        ⟨"pl_name", ["Planet A"], [⟨"pl_orbper", some 1, [⟨0, true⟩]⟩]⟩
      = (assignGo ⟨"pl_name", ["Planet A"], [⟨"pl_orbper", some 1, [⟨5, false⟩]⟩]⟩
          ⟨"pl_name", ["Planet A"], [⟨"pl_orbper", some 1, [⟨0, true⟩]⟩]⟩ 0 [0]
          ⟨"pl_name", ["Planet A"], [⟨"pl_orbper", some 1, [⟨5, false⟩]⟩]⟩, none) ∧
    tcell (assignGo ⟨"pl_name", ["Planet A"], [⟨"pl_orbper", some 1, [⟨5, false⟩]⟩]⟩
          ⟨"pl_name", ["Planet A"], [⟨"pl_orbper", some 1, [⟨0, true⟩]⟩]⟩ 0 [0]
          ⟨"pl_name", ["Planet A"], [⟨"pl_orbper", some 1, [⟨5, false⟩]⟩]⟩)
        "pl_orbper" ([0].getD 0 0)
      = tcell ⟨"pl_name", ["Planet A"], [⟨"pl_orbper", some 1, [⟨5, false⟩]⟩]⟩
        "pl_orbper" ([0].getD 0 0) :=
  replace_with_source_absent_preserves
    ⟨"pl_name", ["Planet A"], [⟨"pl_orbper", some 1, [⟨5, false⟩]⟩]⟩
    ⟨"pl_name", ["Planet A"], [⟨"pl_orbper", some 1, [⟨0, true⟩]⟩]⟩
    [0] 0 "pl_orbper" ⟨"pl_orbper", some 1, [⟨0, true⟩]⟩
    (by decide) (by decide) (by rfl) (by decide) (by decide) (by rfl) (by rfl)

/-- Column existence with a row in range survives a cell assignment. -/
theorem exCol_setCellP (t : MTable) (nm : String) (i : Nat) (v : ℚ) (c : String)
    (j₀ : Nat) (h : ∃ col, getCol t c = some col ∧ j₀ < col.cells.length) :
    ∃ col, getCol (setCellP t nm i v) c = some col ∧ j₀ < col.cells.length := by
  obtain ⟨col, hc, hl⟩ := h
  rw [getCol_setCellP, hc]
  by_cases hn : col.name = nm
  · refine ⟨{ col with cells := col.cells.set i ⟨v, false⟩ }, ?_, ?_⟩
    · simp [hn]
    · simpa using hl
  · refine ⟨col, ?_, hl⟩
    simp [hn]

/-- Column existence with a row in range survives the inner assignment
loop. -/
theorem exCol_assignCols (tOrig : MTable) (ocs : List Col) (i j : Nat)
    (t : MTable) (c : String) (j₀ : Nat)
    (h : ∃ col, getCol t c = some col ∧ j₀ < col.cells.length) :
    ∃ col, getCol (assignCols tOrig ocs i j t) c = some col ∧ j₀ < col.cells.length := by
  induction ocs generalizing t with
  | nil => exact h
  | cons oc rest ih =>
    simp only [assignCols]
    by_cases hm : (cellAt oc i).masked
    · rw [if_pos hm]; exact ih t h
    · rw [if_neg hm]; exact ih _ (exCol_setCellP _ _ _ _ _ _ h)

/-- The inner assignment loop writes the unit-converted source value into
the target cell when the (unique) source column named `c` is present at the
source row. -/
theorem tcell_assignCols_set (tOrig : MTable) (ocs : List Col) (i j₀ : Nat)
    (t : MTable) (c : String) (sc : Col)
    (hnd : (ocs.map (fun col => col.name)).Nodup)
    (hsc : ocs.find? (fun col => col.name == c) = some sc)
    (hm : (cellAt sc i).masked = false)
    (hP : ∃ col, getCol t c = some col ∧ j₀ < col.cells.length) :
    tcell (assignCols tOrig ocs i j₀ t) c j₀
      = ⟨convertVal (unitOf tOrig c) sc.unit (cellAt sc i).val, false⟩ := by
  induction ocs generalizing t with
  | nil => exact absurd hsc (by simp)
  | cons oc rest ih =>
    simp only [assignCols]
    cases hb : (oc.name == c) with
    | true =>
      have hbc : oc.name = c := by simpa using hb
      have hoc : oc = sc := by
        rw [List.find?_cons_of_pos _ (by simpa using hb)] at hsc
        exact Option.some_injective _ hsc
      subst hoc
      rw [if_neg (by rw [hm]; exact Bool.false_ne_true)]
      have hrest : ∀ oc' ∈ rest, oc'.name = c → (cellAt oc' i).masked = true := by
        intro oc' hmem hname
        exfalso
        have hcs : c ∈ rest.map (fun col => col.name) :=
          List.mem_map.mpr ⟨oc', hmem, hname⟩
        have h2 : oc.name ∉ rest.map (fun col => col.name) := by
          simpa using (List.nodup_cons.mp hnd).1
        rw [hbc] at h2
        exact h2 hcs
      rw [tcell_assignCols_not_name _ _ _ _ _ _ _ hrest, hbc]
      obtain ⟨col, hc, hl⟩ := hP
      exact tcell_setCellP_self t c j₀ _ col hc hl
    | false =>
      have hbc : oc.name ≠ c := by simpa using hb
      have hsc' : rest.find? (fun col => col.name == c) = some sc := by
        rwa [List.find?_cons_of_neg _ (by simpa using hb)] at hsc
      have hnd' := (List.nodup_cons.mp hnd).2
      by_cases hmm : (cellAt oc i).masked
      · rw [if_pos hmm]; exact ih t hnd' hsc' hP
      · rw [if_neg hmm]
        exact ih _ hnd' hsc' (exCol_setCellP _ _ _ _ _ _ hP)

/-- The row loop writes the unit-converted source value of row `r` into the
matched target row, and no later pass disturbs it. -/
theorem tcell_assignGo_set (tOrig other : MTable) (js : List Nat)
    (i₀ r j₀ : Nat) (t : MTable) (c : String) (sc : Col)
    (hwS : (other.cols.map (fun col => col.name)).Nodup)
    (hsc : getCol other c = some sc)
    (honly : ∀ p, p < js.length → js.getD p 0 = j₀ → p = r)
    (hr : r < js.length)
    (hjr : js.getD r 0 = j₀)
    (hm : (cellAt sc (i₀ + r)).masked = false)
    (hP : ∃ col, getCol t c = some col ∧ j₀ < col.cells.length) :
    tcell (assignGo tOrig other i₀ js t) c j₀
      = ⟨convertVal (unitOf tOrig c) sc.unit (cellAt sc (i₀ + r)).val, false⟩ := by
  induction js generalizing i₀ r t with
  | nil => exact absurd hr (by simp)
  | cons j js' ih =>
    simp only [assignGo]
    cases r with
    | zero =>
      have hj : j = j₀ := by simpa using hjr
      subst hj
      have hpres : tcell (assignGo tOrig other (i₀ + 1) js'
          (assignRow tOrig other i₀ j t)) c j
          = tcell (assignRow tOrig other i₀ j t) c j := by
        apply tcell_assignGo_preserve
        intro p hp hgd oc _ _
        exfalso
        have := honly (p + 1) (by simpa using Nat.succ_lt_succ hp) (by simpa using hgd)
        exact Nat.succ_ne_zero p this
      rw [hpres]
      unfold assignRow
      rw [Nat.add_zero]
      exact tcell_assignCols_set tOrig other.cols i₀ j t c sc hwS hsc hm hP
    | succ r' =>
      have hjne : j ≠ j₀ := by
        intro hj
        have := honly 0 (by simp) (by simpa using hj)
        exact (Nat.succ_ne_zero r') this.symm
      have harith : i₀ + (r' + 1) = i₀ + 1 + r' := by omega
      rw [harith]
      apply ih (i₀ + 1) r' _
        (fun p hp hgd => by
          have := honly (p + 1) (by simpa using Nat.succ_lt_succ hp) (by simpa using hgd)
          omega)
        (by simpa using Nat.lt_of_succ_lt_succ (Nat.succ_lt_succ hr))
        (by simpa using hjr)
        (by rwa [← harith])
      exact exCol_assignCols _ _ _ _ _ _ _ hP

/-- Claim C2: after `replace_with`, every non-key cell that is present in
the source overwrites the matched target cell with the source value
converted from the source column's unit to the target column's unit
(`conversion = other[key].unit.to(units[key])`, archive.py:184-185); if the
target column has no unit the value is copied without conversion
(archive.py:181-182).  A source column without a unit has adopted the
target's unit, so its conversion factor is 1. -/
theorem replace_with_source_present_converts
    (T S : MTable) (idx : List Nat) (r : Nat) (c : String) (sc : Col)
    (hwT : ∀ col ∈ T.cols, col.cells.length = T.names.length)
    (hwS : (S.cols.map (fun col => col.name)).Nodup)
    (hcols : ∀ oc ∈ S.cols, hasColName T oc.name = true)
    (hidx : get_index T.names S.names = .ok idx)
    (hnd : idx.Nodup)
    (hr : r < idx.length)
    (hsc : getCol S c = some sc)
    (hm : (cellAt sc r).masked = false) :
    replace_with T S = (assignGo T S 0 idx T, none) ∧
    tcell (assignGo T S 0 idx T) c (idx.getD r 0)
      = ⟨convertVal (unitOf T c) sc.unit (cellAt sc r).val, false⟩ ∧
    (unitOf T c = none →
      tcell (assignGo T S 0 idx T) c (idx.getD r 0) = ⟨(cellAt sc r).val, false⟩) := by
  have hscmem : sc ∈ S.cols := List.mem_of_find?_eq_some hsc
  have hscname : sc.name = c := by
    have := List.find?_some hsc
    simpa using this
  have hTc : hasColName T c = true := by
    have := hcols sc hscmem
    rwa [hscname] at this
  have hTcol : ∃ col, getCol T c = some col ∧ idx.getD r 0 < col.cells.length := by
    obtain ⟨col, hmemT, hname⟩ := by simpa [hasColName, List.any_eq_true] using hTc
    have hfind : (getCol T c).isSome := by
      unfold getCol
      rw [List.find?_isSome]
      exact ⟨col, hmemT, by simpa using hname⟩
    obtain ⟨col', hcol'⟩ := Option.isSome_iff_exists.mp hfind
    refine ⟨col', hcol', ?_⟩
    have hmem' : col' ∈ T.cols := List.mem_of_find?_eq_some hcol'
    rw [hwT col' hmem']
    have hgd : idx.getD r 0 = idx[r] := List.getD_eq_getElem idx 0 hr
    rw [hgd]
    exact get_index_lt T.names S.names idx hidx _ (List.getElem_mem _)
  have hval : tcell (assignGo T S 0 idx T) c (idx.getD r 0)
      = ⟨convertVal (unitOf T c) sc.unit (cellAt sc r).val, false⟩ := by
    have h0 : (0 : Nat) + r = r := Nat.zero_add r
    have := tcell_assignGo_set T S idx 0 r (idx.getD r 0) T c sc hwS hsc
      (fun p hp hgd => by
        rw [List.getD_eq_getElem idx 0 hp, List.getD_eq_getElem idx 0 hr] at hgd
        exact (List.Nodup.getElem_inj_iff hnd).mp hgd)
      hr rfl (by rwa [h0]) hTcol
    rwa [h0] at this
  refine ⟨replace_with_ok T S idx hcols hidx, hval, ?_⟩
  intro hnone
  rw [hval, hnone]
  rfl

/-- Witness for C2: the source column `pl_orbper` carries `8/10000` in days
(unit scale 86400), the target column is in seconds (unit scale 1); after
the merge the target cell holds `8/10000 * 86400 = 69.12`, present. -/
theorem replace_with_source_present_converts_witness :
    replace_with
        ⟨"pl_name", ["Planet A"], [⟨"pl_orbper", some 1, [⟨1, false⟩]⟩]⟩
        ⟨"pl_name", ["Planet A"], [⟨"pl_orbper", some 86400, [⟨8/10000, false⟩]⟩]⟩
      = (assignGo ⟨"pl_name", ["Planet A"], [⟨"pl_orbper", some 1, [⟨1, false⟩]⟩]⟩
          ⟨"pl_name", ["Planet A"], [⟨"pl_orbper", some 86400, [⟨8/10000, false⟩]⟩]⟩
          0 [0] ⟨"pl_name", ["Planet A"], [⟨"pl_orbper", some 1, [⟨1, false⟩]⟩]⟩, none) ∧
    tcell (assignGo ⟨"pl_name", ["Planet A"], [⟨"pl_orbper", some 1, [⟨1, false⟩]⟩]⟩
        ⟨"pl_name", ["Planet A"], [⟨"pl_orbper", some 86400, [⟨8/10000, false⟩]⟩]⟩
        0 [0] ⟨"pl_name", ["Planet A"], [⟨"pl_orbper", some 1, [⟨1, false⟩]⟩]⟩)
      "pl_orbper" ([0].getD 0 0) = ⟨1728/25, false⟩ := by
  have h := replace_with_source_present_converts
    ⟨"pl_name", ["Planet A"], [⟨"pl_orbper", some 1, [⟨1, false⟩]⟩]⟩
    ⟨"pl_name", ["Planet A"], [⟨"pl_orbper", some 86400, [⟨8/10000, false⟩]⟩]⟩
    [0] 0 "pl_orbper" ⟨"pl_orbper", some 86400, [⟨8/10000, false⟩]⟩
    (by decide) (by decide) (by decide) (by rfl) (by decide) (by decide)
    (by rfl) (by rfl)
  refine ⟨h.1, h.2.1.trans ?_⟩
  show (⟨convertVal (some 1) (some 86400) (8/10000 : ℚ), false⟩ : Cell) = ⟨1728/25, false⟩
  have hq : convertVal (some 1) (some 86400) (8/10000 : ℚ) = 1728/25 := by
    simp only [convertVal, Option.getD]
    norm_num
  rw [hq]

/-- Claim C10: `replace_with` requires every source column to exist in the
target.  When one is missing, the `units[key] = self[key].unit` pass
(archive.py:143-146) raises `KeyError` at the first missing column — before
key resolution, before any row is appended and before any cell assignment —
so the returned target state is exactly the input target (atomic failure).
The source is passed by value here, as the Python code operates on the
masked copy made at archive.py:141, so the caller's source is never
mutated. -/
theorem replace_with_missing_col_atomic (T S : MTable) (cn : String)
    (h1 : cn ∈ S.cols.map (fun col => col.name))
    (h2 : hasColName T cn = false) :
    ∃ c₀, replace_with T S = (T, some (.keyError c₀)) ∧
      hasColName T c₀ = false ∧ c₀ ∈ S.cols.map (fun col => col.name) := by
  cases hf : S.cols.find? (fun oc => !(hasColName T oc.name)) with
  | none =>
    exfalso
    obtain ⟨oc, hm, hname⟩ := List.mem_map.mp h1
    have hno := List.find?_eq_none.mp hf oc hm
    apply hno
    rw [hname, h2]
    rfl
  | some oc =>
    refine ⟨oc.name, ?_, ?_, ?_⟩
    · unfold replace_with
      rw [hf]
    · have := List.find?_some hf
      simpa using this
    · exact List.mem_map.mpr ⟨oc, List.mem_of_find?_eq_some hf, rfl⟩

/-- Witness for C10: the source has a column `"x"` that the target lacks;
the call returns the untouched target with the `KeyError`. -/
theorem replace_with_missing_col_atomic_witness :
    ∃ c₀, replace_with
        ⟨"pl_name", ["Planet A"], [⟨"a", none, [⟨0, false⟩]⟩]⟩
        ⟨"pl_name", ["Planet A"], [⟨"x", none, [⟨1, false⟩]⟩]⟩
      = (⟨"pl_name", ["Planet A"], [⟨"a", none, [⟨0, false⟩]⟩]⟩, some (.keyError c₀)) ∧
      hasColName ⟨"pl_name", ["Planet A"], [⟨"a", none, [⟨0, false⟩]⟩]⟩ c₀ = false ∧
      c₀ ∈ [⟨"x", none, [⟨1, false⟩]⟩].map (fun (col : Col) => col.name) :=
  replace_with_missing_col_atomic
    ⟨"pl_name", ["Planet A"], [⟨"a", none, [⟨0, false⟩]⟩]⟩
    ⟨"pl_name", ["Planet A"], [⟨"x", none, [⟨1, false⟩]⟩]⟩
    "x" (by decide) (by decide)

/-- Claim C3 (code bug): a source key absent from the target makes
`replace_with` raise the `ValueError("Unkonwn planet ...")` from
`get_index` instead of appending a new masked row.  `get_index`
(table_custom.py:125-149) never returns `-1` — it raises on zero matches —
so the append-and-re-resolve branch at archive.py:159-165, written to
handle `index == -1`, is dead code and the merge aborts with the target
unchanged.  This theorem evaluates the embedded code at the failing input:
target keys `["Planet A"]`, source key `"Planet B"`. -/
theorem replace_with_unmatched_key_raises :
    replace_with
        ⟨"pl_name", ["Planet A"], [⟨"pl_orbper", none, [⟨1, false⟩]⟩]⟩
        ⟨"pl_name", ["Planet B"], [⟨"pl_orbper", none, [⟨2, false⟩]⟩]⟩
      = (⟨"pl_name", ["Planet A"], [⟨"pl_orbper", none, [⟨1, false⟩]⟩]⟩,
         some (.notFound "Planet B")) := by
  rfl

/-! ### Theorems about `complete` -/

theorem getD_range_map (n i : Nat) (g : Nat → Cell) (d : Cell) (h : i < n) :
    (((List.range n).map g).getD i d) = g i := by
  rw [List.getD_eq_getElem _ d (by simpa using h)]
  simp

/-- Claim C4: `complete(left, right, key, add_col)` returns a table (the
inputs are untouched — the embedding is pure, matching the source, which
builds its result on the joined copy) in which, for every shared non-key
column and every joined row, the cell takes `right`'s value and becomes
present exactly when `left`'s copy is masked and `right`'s copy is present,
and keeps `left`'s cell otherwise (also when the key has no match in
`right`, where the join leaves `right`'s side masked); and with
`add_col = false` the result's columns are exactly `left`'s — every column
that existed only in `right` is dropped. -/
theorem complete_cells_and_cols
    (left right : MTable) (b : Bool) (c : String) (i : Nat) (lc rc : Col)
    (hlc : getCol left c = some lc)
    (hrc : getCol right c = some rc)
    (hi : i < left.names.length) :
    tcell (complete left right b) c i
      = (if (cellAt lc i).masked && !(joinCell right rc (left.names.getD i "")).masked
         then ⟨(joinCell right rc (left.names.getD i "")).val, false⟩
         else cellAt lc i) ∧
    (complete left right false).cols.map (fun col => col.name)
      = left.cols.map (fun col => col.name) := by
  have hlcname : lc.name = c := by
    have := List.find?_some hlc
    simpa using this
  have hname : ∀ col, (mergeLeftCol left right col).name = col.name := by
    intro col
    unfold mergeLeftCol
    cases getCol right col.name <;> rfl
  constructor
  · have h1 : getCol (complete left right b) c = some (mergeLeftCol left right lc) := by
      unfold complete getCol
      simp only [List.find?_append]
      rw [find?_map_name_pres (mergeLeftCol left right) hname left.cols c]
      rw [show left.cols.find? (fun col => col.name == c) = some lc from hlc]
      rfl
    have h2 : getCol right lc.name = some rc := hlcname ▸ hrc
    simp only [tcell, h1, mergeLeftCol, h2]
    show (((List.range left.names.length).map _).getD i _) = _
    rw [getD_range_map _ _ _ _ hi]
  · show (left.cols.map (mergeLeftCol left right)
        ++ (if false = true then extraCols left right else [])).map (fun col => col.name)
      = left.cols.map (fun col => col.name)
    rw [if_neg Bool.false_ne_true, List.append_nil, List.map_map]
    apply List.map_congr_left
    intro col _
    simp only [Function.comp_apply]
    exact hname col

/-- Witness for C4: shared column `X` with a masked left cell filled from
the present right cell, and right-only column `Y` dropped when
`add_col = false`. -/
theorem complete_cells_and_cols_witness :
    tcell (complete ⟨"pl_name", ["p1", "p2"], [⟨"X", none, [⟨1, true⟩, ⟨2, false⟩]⟩]⟩
        ⟨"pl_name", ["p1"], [⟨"X", none, [⟨7, false⟩]⟩, ⟨"Y", none, [⟨9, false⟩]⟩]⟩ false)
        "X" 0
      = (if (cellAt ⟨"X", none, [⟨1, true⟩, ⟨2, false⟩]⟩ 0).masked &&
            !(joinCell ⟨"pl_name", ["p1"], [⟨"X", none, [⟨7, false⟩]⟩, ⟨"Y", none, [⟨9, false⟩]⟩]⟩
                ⟨"X", none, [⟨7, false⟩]⟩ (["p1", "p2"].getD 0 "")).masked
         then ⟨(joinCell ⟨"pl_name", ["p1"], [⟨"X", none, [⟨7, false⟩]⟩, ⟨"Y", none, [⟨9, false⟩]⟩]⟩
                ⟨"X", none, [⟨7, false⟩]⟩ (["p1", "p2"].getD 0 "")).val, false⟩
         else cellAt ⟨"X", none, [⟨1, true⟩, ⟨2, false⟩]⟩ 0) ∧
    (complete ⟨"pl_name", ["p1", "p2"], [⟨"X", none, [⟨1, true⟩, ⟨2, false⟩]⟩]⟩
        ⟨"pl_name", ["p1"], [⟨"X", none, [⟨7, false⟩]⟩, ⟨"Y", none, [⟨9, false⟩]⟩]⟩
        false).cols.map (fun col => col.name)
      = [⟨"X", none, [⟨1, true⟩, ⟨2, false⟩]⟩].map (fun (col : Col) => col.name) :=
  complete_cells_and_cols
    ⟨"pl_name", ["p1", "p2"], [⟨"X", none, [⟨1, true⟩, ⟨2, false⟩]⟩]⟩
    ⟨"pl_name", ["p1"], [⟨"X", none, [⟨7, false⟩]⟩, ⟨"Y", none, [⟨9, false⟩]⟩]⟩
    false "X" 0 ⟨"X", none, [⟨1, true⟩, ⟨2, false⟩]⟩ ⟨"X", none, [⟨7, false⟩]⟩
    (by rfl) (by rfl) (by decide)

/-! ### Theorems about the error-group masking -/

/-- Claim C6 (code bug): `mask_zero_errors` is supposed to mask the whole
error group `[X, Xerr1, Xerr2]` at every row where an error sibling is
exactly zero, but the guard `if imask.any()` (archive.py:127) tests the
truthiness of the matched row *indices*, so when the only matching row is
row 0 the group is left untouched — first conjunct, the failing input
(one row, `Xerr1 = 0`, everything present; the table comes back
unchanged).  The second conjunct shows the intended behaviour does happen
when the zero-error row has a nonzero index: the same data shifted to row 1
gets the whole group masked (values kept, masks set).  The third conjunct
shows a row with nonzero errors `{3, 5}` is untouched.  The fourth conjunct
checks the `mask_no_errors` part of the claim, which the code does satisfy:
a row whose value cell is masked gets its error siblings masked too. -/
theorem mask_zero_errors_row_zero_guard_bug :
    mask_zero_errors
        ⟨"pl_name", ["p1"],
         [⟨"X", none, [⟨1, false⟩]⟩, ⟨"Xerr1", none, [⟨0, false⟩]⟩,
          ⟨"Xerr2", none, [⟨5, false⟩]⟩]⟩ ["err1", "err2"]
      = ⟨"pl_name", ["p1"],
         [⟨"X", none, [⟨1, false⟩]⟩, ⟨"Xerr1", none, [⟨0, false⟩]⟩,
          ⟨"Xerr2", none, [⟨5, false⟩]⟩]⟩ ∧
    mask_zero_errors
        ⟨"pl_name", ["p0", "p1"],
         [⟨"X", none, [⟨1, false⟩, ⟨2, false⟩]⟩,
          ⟨"Xerr1", none, [⟨3, false⟩, ⟨0, false⟩]⟩,
          ⟨"Xerr2", none, [⟨5, false⟩, ⟨5, false⟩]⟩]⟩ ["err1", "err2"]
      = ⟨"pl_name", ["p0", "p1"],
         [⟨"X", none, [⟨1, false⟩, ⟨2, true⟩]⟩,
          ⟨"Xerr1", none, [⟨3, false⟩, ⟨0, true⟩]⟩,
          ⟨"Xerr2", none, [⟨5, false⟩, ⟨5, true⟩]⟩]⟩ ∧
    mask_zero_errors
        ⟨"pl_name", ["p0"],
         [⟨"X", none, [⟨1, false⟩]⟩, ⟨"Xerr1", none, [⟨3, false⟩]⟩,
          ⟨"Xerr2", none, [⟨5, false⟩]⟩]⟩ ["err1", "err2"]
      = ⟨"pl_name", ["p0"],
         [⟨"X", none, [⟨1, false⟩]⟩, ⟨"Xerr1", none, [⟨3, false⟩]⟩,
          ⟨"Xerr2", none, [⟨5, false⟩]⟩]⟩ ∧
    mask_no_errors
        ⟨"pl_name", ["p0"],
         [⟨"X", none, [⟨1, true⟩]⟩, ⟨"Xerr1", none, [⟨3, false⟩]⟩,
          ⟨"Xerr2", none, [⟨5, false⟩]⟩]⟩ ["err1", "err2"]
      = ⟨"pl_name", ["p0"],
         [⟨"X", none, [⟨1, true⟩]⟩, ⟨"Xerr1", none, [⟨3, true⟩]⟩,
          ⟨"Xerr2", none, [⟨5, true⟩]⟩]⟩ := by
  refine ⟨?_, ?_, ?_, ?_⟩ <;> rfl

/-! ### Theorems about the schema-migration renames -/

/-- Claim C7 (code bug): the rename loop of `format_ps_table` is supposed
to rename each old-dialect column to its new-dialect label, but
archive.py:608 builds `label_pc` from the PS column
(`label_df[PS_NAME].str.strip()` instead of `label_df[PC_NAME]`), so every
rename is a no-op rename of a column to itself.  First conjunct: a mapping
row `("oldcol" → "newcol")` on a table with column `"oldcol"` leaves the
column named `"oldcol"` and never introduces `"newcol"`.  Second conjunct:
a mapping whose old column is absent yields a logged warning, not a
failure.  Third conjunct: an old label in the `MISSING_COLS` exclusion
list is skipped without a warning. -/
theorem format_ps_renames_no_op_bug :
    format_ps_renames [(some "oldcol", some "newcol")] ["oldcol"] = (["oldcol"], []) ∧
    format_ps_renames [(some "absent", some "n")] ["a"] = (["a"], ["absent"]) ∧
    format_ps_renames [(some "raerr1", some "x")] ["a"] = (["a"], []) := by
  refine ⟨?_, ?_, ?_⟩ <;> rfl

/-! ### Theorems about the `update` pipeline tail -/

/-- Counterexample to claim C8 as stated: with accumulator columns `["a"]`
and reference columns `["a", "b"]` the reduced table is missing `"b"`, and
the pipeline raises the `KeyError` from the re-indexing `new = new[pc_cols]`
(archive.py:464), not the `RuntimeError` of the safety check — the claim
names the wrong failure. -/
theorem update_tail_missing_raises_keyerror :
    update_tail ["a"] ["a", "b"] = .error (.keyError "b") ∧
    update_tail ["a"] ["a", "b"] ≠ .error .runtimeError := by
  refine ⟨rfl, ?_⟩
  intro h
  rw [show update_tail ["a"] ["a", "b"] = .error (.keyError "b") from rfl] at h
  simp at h

theorem contains_true_iff (l : List String) (c : String) :
    l.contains c = true ↔ c ∈ l :=
  List.elem_iff

theorem contains_false_iff (l : List String) (c : String) :
    l.contains c = false ↔ c ∉ l := by
  constructor
  · intro h hc
    rw [(contains_true_iff l c).mpr hc] at h
    exact absurd h (by simp)
  · intro h
    cases hb : l.contains c with
    | false => rfl
    | true => exact absurd ((contains_true_iff l c).mp hb) h

/-- Membership in the kept columns after `del new[dlist]`. -/
theorem mem_kept_iff (newCols pcCols : List String) (c : String) :
    ((newCols.filter (fun x => !((difference newCols pcCols).contains x))).contains c = true)
      ↔ c ∈ newCols ∧ c ∈ pcCols := by
  rw [contains_true_iff, List.mem_filter]
  constructor
  · rintro ⟨h1, h2⟩
    refine ⟨h1, ?_⟩
    by_contra hcp
    have hdl : c ∈ difference newCols pcCols := by
      unfold difference
      rw [List.mem_dedup, List.mem_filter]
      refine ⟨h1, ?_⟩
      rw [Bool.not_eq_true', contains_false_iff]
      exact hcp
    rw [Bool.not_eq_true', contains_false_iff] at h2
    exact h2 hdl
  · rintro ⟨h1, h2⟩
    refine ⟨h1, ?_⟩
    rw [Bool.not_eq_true', contains_false_iff]
    intro hdl
    unfold difference at hdl
    rw [List.mem_dedup, List.mem_filter, Bool.not_eq_true', contains_false_iff] at hdl
    exact hdl.2 h2

/-- Claim C8 amended: extra accumulator columns are dropped; when every
reference column is present the tail returns exactly the reference column
list, so the `RuntimeError` safety check (archive.py:467-470) can never
fire — on a missing reference column the earlier re-indexing raises a
`KeyError` first, and either way no table with a mismatched schema is
produced. -/
theorem update_tail_spec (newCols pcCols : List String) :
    update_tail newCols pcCols ≠ .error .runtimeError ∧
    ((∀ c ∈ pcCols, c ∈ newCols) → update_tail newCols pcCols = .ok pcCols) ∧
    ((∃ c ∈ pcCols, c ∉ newCols) →
      ∃ c, update_tail newCols pcCols = .error (.keyError c) ∧ c ∈ pcCols ∧ c ∉ newCols) := by
  have hdiff_self : difference pcCols pcCols = [] := by
    unfold difference
    rw [List.filter_eq_nil_iff.mpr, List.dedup_nil]
    intro a ha
    rw [Bool.not_eq_true, Bool.not_eq_false', contains_true_iff]
    exact ha
  cases hf : pcCols.find? (fun c => !((newCols.filter
      (fun x => !((difference newCols pcCols).contains x))).contains c)) with
  | some c =>
    have hres : update_tail newCols pcCols = .error (.keyError c) := by
      simp only [update_tail]
      rw [hf]
    have hcpc : c ∈ pcCols := List.mem_of_find?_eq_some hf
    have hcontains : ((newCols.filter
        (fun x => !((difference newCols pcCols).contains x))).contains c) = false := by
      have hx := List.find?_some hf
      rwa [Bool.not_eq_true'] at hx
    have hcnew : c ∉ newCols := by
      intro hmem
      have h2 := (mem_kept_iff newCols pcCols c).mpr ⟨hmem, hcpc⟩
      rw [h2] at hcontains
      exact absurd hcontains (by simp)
    refine ⟨?_, ?_, ?_⟩
    · rw [hres]
      intro h
      simp at h
    · intro hall
      exact absurd (hall c hcpc) hcnew
    · intro _
      exact ⟨c, hres, hcpc, hcnew⟩
  | none =>
    have hres : update_tail newCols pcCols = .ok pcCols := by
      simp only [update_tail]
      rw [hf, hdiff_self]
      simp
    refine ⟨?_, fun _ => hres, ?_⟩
    · rw [hres]
      intro h
      simp at h
    · rintro ⟨c, hcpc, hcnew⟩
      have hno := List.find?_eq_none.mp hf c hcpc
      cases hb : ((newCols.filter
          (fun x => !((difference newCols pcCols).contains x))).contains c) with
      | true => exact absurd ((mem_kept_iff newCols pcCols c).mp hb).1 hcnew
      | false => exact (hno (by rw [hb]; rfl)).elim

/-- Witness for the amended C8 at a concrete input: accumulator columns
`["b", "a", "c"]` against reference `["a", "b"]` — the extra `"c"` is
dropped and the result is exactly the reference column list, in reference
order, with no error. -/
theorem update_tail_spec_witness :
    update_tail ["b", "a", "c"] ["a", "b"] = .ok ["a", "b"] :=
  (update_tail_spec ["b", "a", "c"] ["a", "b"]).2.1 (by decide)

/-! ### Theorems about the composite reduction loop -/

theorem length_dropFirstPerName_le (rows : List (String × List Cell)) :
    ∀ seen, (dropFirstPerName seen rows).length ≤ rows.length := by
  induction rows with
  | nil => intro seen; simp [dropFirstPerName]
  | cons r rs ih =>
    intro seen
    simp only [dropFirstPerName]
    by_cases h : seen.contains r.1 = true
    · rw [if_pos h]
      simp only [List.length_cons]
      exact Nat.succ_le_succ (ih seen)
    · rw [if_neg h]
      exact Nat.le_succ_of_le (ih (r.1 :: seen))

theorem length_dropFirstPerName_lt (r : String × List Cell)
    (rs : List (String × List Cell)) :
    (dropFirstPerName [] (r :: rs)).length < (r :: rs).length := by
  simp only [dropFirstPerName]
  rw [if_neg (by simp)]
  exact Nat.lt_succ_of_le (length_dropFirstPerName_le rs [r.1])

theorem countName_cons (n : String) (r : String × List Cell)
    (rs : List (String × List Cell)) :
    countName n (r :: rs)
      = (if r.1 = n then countName n rs + 1 else countName n rs) := by
  by_cases h : r.1 = n <;> simp [countName, List.filter_cons, h]

theorem countName_dropFirstPerName (n : String) (rows : List (String × List Cell)) :
    ∀ seen, countName n (dropFirstPerName seen rows)
      = if n ∈ seen then countName n rows else countName n rows - 1 := by
  induction rows with
  | nil => intro seen; simp [dropFirstPerName, countName]
  | cons r rs ih =>
    intro seen
    simp only [dropFirstPerName]
    by_cases hs : seen.contains r.1 = true
    · rw [if_pos hs, countName_cons, countName_cons, ih seen]
      by_cases hrn : r.1 = n
      · have hn : n ∈ seen := by
          rw [← hrn]
          exact (contains_true_iff _ _).mp hs
        simp [hrn, hn]
      · simp [hrn]
    · rw [if_neg hs, ih (r.1 :: seen)]
      have hrseen : r.1 ∉ seen := fun hmem => hs ((contains_true_iff _ _).mpr hmem)
      by_cases hrn : r.1 = n
      · subst hrn
        simp [countName_cons, hrseen]
      · rw [countName_cons, if_neg hrn]
        by_cases hn : n ∈ seen
        · simp [hn, List.mem_cons]
        · have hnc : n ∉ r.1 :: seen := by
            rw [List.mem_cons]
            rintro (h1 | h2)
            · exact hrn h1.symm
            · exact hn h2
          simp [hn, hnc]

theorem mem_dropFirstPerName (rows : List (String × List Cell)) :
    ∀ seen r, r ∈ dropFirstPerName seen rows → r ∈ rows := by
  induction rows with
  | nil => intro seen r h; simp [dropFirstPerName] at h
  | cons q rs ih =>
    intro seen r h
    simp only [dropFirstPerName] at h
    by_cases hs : seen.contains q.1 = true
    · rw [if_pos hs] at h
      rcases List.mem_cons.mp h with h1 | h2
      · exact h1 ▸ List.mem_cons_self _ _
      · exact List.mem_cons_of_mem _ (ih seen r h2)
    · rw [if_neg hs] at h
      exact List.mem_cons_of_mem _ (ih (q.1 :: seen) r h)

theorem foldr_max_le (l : List String) (g : String → Nat) (B : Nat)
    (h : ∀ n ∈ l, g n ≤ B) :
    l.foldr (fun n m => max (g n) m) 0 ≤ B := by
  induction l with
  | nil => simp
  | cons a l ih =>
    simp only [List.foldr_cons]
    exact Nat.max_le.mpr ⟨h a (List.mem_cons_self _ _),
      ih (fun n hn => h n (List.mem_cons_of_mem _ hn))⟩

theorem le_foldr_max (l : List String) (g : String → Nat) (n : String) (h : n ∈ l) :
    g n ≤ l.foldr (fun n m => max (g n) m) 0 := by
  induction l with
  | nil => exact absurd h (by simp)
  | cons a l ih =>
    simp only [List.foldr_cons]
    rcases List.mem_cons.mp h with h1 | h2
    · rw [h1]
      exact Nat.le_max_left _ _
    · exact Nat.le_trans (ih h2) (Nat.le_max_right _ _)

theorem countName_le_maxMult (n : String) (rows : List (String × List Cell))
    (h : n ∈ rows.map (fun r => r.1)) :
    countName n rows ≤ maxMult rows := by
  unfold maxMult
  exact le_foldr_max (rows.map (fun r => r.1)) (fun m => countName m rows) n h

theorem maxMult_pos (r : String × List Cell) (rs : List (String × List Cell)) :
    1 ≤ maxMult (r :: rs) := by
  have h1 : 1 ≤ countName r.1 (r :: rs) := by
    rw [countName_cons, if_pos rfl]
    omega
  exact Nat.le_trans h1 (countName_le_maxMult r.1 _ (by simp))

theorem maxMult_dropFirstPerName_le (rows : List (String × List Cell)) :
    maxMult (dropFirstPerName [] rows) ≤ maxMult rows - 1 := by
  apply foldr_max_le
  intro n hn
  obtain ⟨r, hr, hrn⟩ := List.mem_map.mp hn
  have hrmem : r ∈ rows := mem_dropFirstPerName rows [] r hr
  have hcount : countName n (dropFirstPerName [] rows) = countName n rows - 1 := by
    rw [countName_dropFirstPerName n rows []]
    simp
  rw [hcount]
  have hle : countName n rows ≤ maxMult rows :=
    countName_le_maxMult n rows (List.mem_map.mpr ⟨r, hrmem, hrn⟩)
  omega

/-- The loop invariant of `compose_go`: with fuel at least the pool size,
the loop exits through its own stop condition (not by fuel exhaustion) and
executes at most `maxMult rows` passes. -/
theorem compose_go_spec (header : List (String × Option ℚ)) :
    ∀ fuel acc rows, rows.length ≤ fuel →
      (¬(1 < (compose_go header fuel acc rows).2.1.length ∧
          hasMasked (compose_go header fuel acc rows).1 = true) ∧
       (compose_go header fuel acc rows).2.2 ≤ maxMult rows) := by
  intro fuel
  induction fuel with
  | zero =>
    intro acc rows hlen
    have hnil : rows = [] := List.eq_nil_of_length_eq_zero (Nat.le_zero.mp hlen)
    subst hnil
    simp [compose_go]
  | succ fuel ih =>
    intro acc rows hlen
    by_cases hc : (1 < rows.length ∧ hasMasked acc = true)
    · cases rows with
      | nil => exact absurd hc (by simp)
      | cons r rs =>
        have hlt : (dropFirstPerName [] (r :: rs)).length < (r :: rs).length :=
          length_dropFirstPerName_lt r rs
        have hlen' : (dropFirstPerName [] (r :: rs)).length ≤ fuel := by
          have := List.length_cons r rs
          omega
        have hres := ih (complete acc (poolToTable header (firstPerName [] (r :: rs))) false)
          (dropFirstPerName [] (r :: rs)) hlen'
        have h2 : maxMult (dropFirstPerName [] (r :: rs)) ≤ maxMult (r :: rs) - 1 :=
          maxMult_dropFirstPerName_le (r :: rs)
        have h3 : 1 ≤ maxMult (r :: rs) := maxMult_pos r rs
        simp only [compose_go]
        rw [if_pos hc]
        refine ⟨hres.1, ?_⟩
        show (compose_go header fuel
            (complete acc (poolToTable header (firstPerName [] (r :: rs))) false)
            (dropFirstPerName [] (r :: rs))).2.2 + 1 ≤ maxMult (r :: rs)
        have h1 := hres.2
        omega
    · simp only [compose_go]
      rw [if_neg hc]
      exact ⟨hc, by simp [maxMult]⟩

/-- Claim C9 counterexample: the pass count of the reduction loop is NOT
bounded by the number of distinct objects.  With a pool of three candidate
rows for the single object `"p1"` (all candidate cells masked, so the
accumulator's masked cell is never filled), the loop executes 2 passes
while the pool has exactly 1 distinct object name. -/
theorem compose_loop_passes_exceed_distinct_objects :
    (compose_from_ps_loop [("X", (none : Option ℚ))]
        ⟨"pl_name", ["p1"], [⟨"X", none, [⟨0, true⟩]⟩]⟩
        [("p1", [⟨0, true⟩]), ("p1", [⟨0, true⟩]), ("p1", [⟨0, true⟩])]).2.2 = 2 ∧
    (([("p1", [(⟨0, true⟩ : Cell)]), ("p1", [⟨0, true⟩]), ("p1", [⟨0, true⟩])].map
        (fun r => r.1)).dedup.length = 1) ∧
    ¬((compose_from_ps_loop [("X", (none : Option ℚ))]
        ⟨"pl_name", ["p1"], [⟨"X", none, [⟨0, true⟩]⟩]⟩
        [("p1", [⟨0, true⟩]), ("p1", [⟨0, true⟩]), ("p1", [⟨0, true⟩])]).2.2 ≤ 1) := by
  refine ⟨?_, ?_, ?_⟩ <;> decide

/-- Claim C9 amended: the composite reduction loop terminates by its own
stop condition — it stops exactly when the pool has at most one row left or
the accumulator has no masked cell, whichever comes first (so when the loop
condition holds initially, at least one pass runs) — and each pass consumes
the first row of every per-object group, so the number of passes is bounded
by the largest number of candidate rows sharing one object (not by the
number of distinct objects). -/
theorem compose_from_ps_loop_spec (header : List (String × Option ℚ))
    (acc : MTable) (rows : List (String × List Cell))
    (h : 1 < rows.length ∧ hasMasked acc = true) :
    (¬(1 < (compose_from_ps_loop header acc rows).2.1.length ∧
        hasMasked (compose_from_ps_loop header acc rows).1 = true)) ∧
    (compose_from_ps_loop header acc rows).2.2 ≤ maxMult rows ∧
    1 ≤ (compose_from_ps_loop header acc rows).2.2 := by
  unfold compose_from_ps_loop
  have hspec := compose_go_spec header rows.length acc rows (Nat.le_refl _)
  refine ⟨hspec.1, hspec.2, ?_⟩
  cases rows with
  | nil => exact absurd h (by simp)
  | cons r rs =>
    simp only [List.length_cons, compose_go]
    rw [if_pos (by simpa using h)]
    simp

/-- Witness for the amended C9 at a concrete input: two candidate rows for
one object and a masked accumulator cell — the loop runs exactly one pass
(1 ≤ passes ≤ maxMult = 2) and exits with the pool reduced to one row. -/
theorem compose_from_ps_loop_spec_witness :
    (¬(1 < (compose_from_ps_loop [("X", (none : Option ℚ))]
        ⟨"pl_name", ["p1"], [⟨"X", none, [⟨0, true⟩]⟩]⟩
        [("p1", [⟨0, true⟩]), ("p1", [⟨0, true⟩])]).2.1.length ∧
      hasMasked (compose_from_ps_loop [("X", (none : Option ℚ))]
        ⟨"pl_name", ["p1"], [⟨"X", none, [⟨0, true⟩]⟩]⟩
        [("p1", [⟨0, true⟩]), ("p1", [⟨0, true⟩])]).1 = true)) ∧
    (compose_from_ps_loop [("X", (none : Option ℚ))]
        ⟨"pl_name", ["p1"], [⟨"X", none, [⟨0, true⟩]⟩]⟩
        [("p1", [⟨0, true⟩]), ("p1", [⟨0, true⟩])]).2.2
      ≤ maxMult [("p1", [⟨0, true⟩]), ("p1", [⟨0, true⟩])] ∧
    1 ≤ (compose_from_ps_loop [("X", (none : Option ℚ))]
        ⟨"pl_name", ["p1"], [⟨"X", none, [⟨0, true⟩]⟩]⟩
        [("p1", [⟨0, true⟩]), ("p1", [⟨0, true⟩])]).2.2 :=
  compose_from_ps_loop_spec [("X", (none : Option ℚ))]
    ⟨"pl_name", ["p1"], [⟨"X", none, [⟨0, true⟩]⟩]⟩
    [("p1", [⟨0, true⟩]), ("p1", [⟨0, true⟩])] (by decide)

end Exofile
